import Mathlib

/-!
Verification of the densmap-analysis core: a shallow embedding of the grid
data model (`densmap.rs`), the neighbour smoothing filter (`average.rs`),
the radial-density radius extraction (`analysis/radial_density.rs`), the
per-angle interface search (`analysis/sample_interface.rs`), the curve
resampler (`graphdata.rs`) and the binary grid codec (`densmap.rs`).

Modelling conventions:
* `f64` values handled arithmetically are modelled as `ℚ` (exact arithmetic;
  every `ℚ` is finite, so `is_finite` filters keep all values).  `f64` values
  handled only as opaque bit patterns (the binary codec) are modelled as
  `Nat` bit patterns below `2^64`.
* `usize`/`isize`/`u64` are modelled as `Nat`/`Int`; casts between them are
  modelled as the mathematical coercions (no wraparound: none of the code
  paths verified here exercises an overflowing cast for grids that can
  satisfy the `data.len() == nx*ny` invariant).
* Loops whose termination is in question are modelled with an explicit fuel
  parameter; exhausted fuel is `none`.
* Panicking indexing `v[i]` is modelled with `List.getD i 0` together with
  in-bounds facts carried by the theorems, or with `Option` where the panic
  itself is the subject of a claim.
-/

/-- Grid of scalar values with geometry metadata (`DensMap` in `densmap.rs`),
polymorphic in the scalar type: `ℚ` for the analysis view of `f64`, `Nat`
(bit patterns) for the codec view. -/
structure DensMap (α : Type) where
  /-- Bin size in all directions (`bin_size: Vec3`). -/
  bin_size : α × α × α
  /-- Origin of system along x and y (`origin: Vec2`). -/
  origin : α × α
  /-- Shape of system along x and y (`shape: Shape = [u64; 2]`). -/
  shape : Nat × Nat
  /-- Center of fitted spherical cap along x and y (`center: Vec2`). -/
  center : α × α
  /-- Density map data as a 1D vector, x changing every index (`data`). -/
  data : List α
  deriving DecidableEq

/-- Get the 2D grid position from a 1D index (`index2tuple` in `densmap.rs`).
Returns `none` if the index lies outside of the system. -/
def index2tuple (i : Nat) (shape : Nat × Nat) : Option (Nat × Nat) :=
  if i < shape.1 * shape.2 then some (i % shape.1, i / shape.1) else none

/-- Get the 1D array index from a 2D grid position (`tuple2index` in
`densmap.rs`). Returns `none` if the position lies outside of the system. -/
def tuple2index (ix iy : Int) (shape : Nat × Nat) : Option Nat :=
  if 0 ≤ ix ∧ ix < (shape.1 : Int) ∧ 0 ≤ iy ∧ iy < (shape.2 : Int) then
    some (iy * shape.1 + ix).toNat
  else
    none

/-- Get the 1D array index from a 2D system coordinate (`coord2index` in
`densmap.rs`): floor-divide each coordinate by the bin size, then bounds
check via `tuple2index`. -/
def coord2index (x y : ℚ) (binSize : ℚ × ℚ × ℚ) (shape : Nat × Nat) : Option Nat :=
  tuple2index ⌊x / binSize.1⌋ ⌊y / binSize.2.1⌋ shape

/-- Integer range `a..=b` as a list, used to model the Rust loops
`for ix in -nx..=nx`. -/
def intRange (a b : Int) : List Int :=
  (List.range (b + 1 - a).toNat).map (fun (k : Nat) => a + (k : Int))

/-- The neighbour candidate sieve (`get_averaging_bin_sieve` in
`average.rs`): all integer offsets `(ix, iy)` with `|ix| ≤ ⌈r/dx⌉`,
`|iy| ≤ ⌈r/dy⌉` whose displacement `(ix*dx, iy*dy)` has squared norm at
most `r²`, collected in the source's nested loop order. -/
def get_averaging_bin_sieve (radius : ℚ) (binSize : ℚ × ℚ × ℚ) : List (Int × Int) :=
  let dx := binSize.1
  let dy := binSize.2.1
  let nx : Int := ⌈radius / dx⌉
  let ny : Int := ⌈radius / dy⌉
  let r2 := radius ^ 2
  (intRange (-nx) nx).flatMap (fun (ix : Int) =>
    (intRange (-ny) ny).filterMap (fun (iy : Int) =>
      if ((ix : ℚ) * dx) ^ 2 + ((iy : ℚ) * dy) ^ 2 ≤ r2 then some (ix, iy) else none))

/-- Neighbours of bin `i` within the system (`get_bin_neighbours` in
`average.rs`): translate each sieve offset by the bin's 2D position and
keep those that stay inside the system.  The source unwraps
`index2tuple`; callers only pass in-range indices, the `none` arm is
unreachable there. -/
def get_bin_neighbours (i : Nat) (shape : Nat × Nat) (sieve : List (Int × Int)) : List Nat :=
  match index2tuple i shape with
  | some (ix, iy) =>
      sieve.filterMap (fun p => tuple2index ((ix : Int) + p.1) ((iy : Int) + p.2) shape)
  | none => []

/-- Per-bin neighbour lists for the whole system, in index order
(`get_system_bin_neighbours` in `average.rs`). -/
def get_system_bin_neighbours (radius : ℚ) (binSize : ℚ × ℚ × ℚ) (shape : Nat × Nat) :
    List (List Nat) :=
  let sieve := get_averaging_bin_sieve radius binSize
  (List.range (shape.1 * shape.2)).map (fun i => get_bin_neighbours i shape sieve)

/-- Average of the data over the given bin indices; exactly `0` for an
empty index list (`average_value_of_bins` in `average.rs`). -/
def average_value_of_bins (data : List ℚ) (bins : List Nat) : ℚ :=
  if bins = [] then 0
  else (bins.map (fun i => data.getD i 0)).sum / (bins.length : ℚ)

/-- Per-bin averaged data (`get_averaged_system` in `average.rs`). -/
def get_averaged_system (data : List ℚ) (neighbours : List (List Nat)) : List ℚ :=
  neighbours.map (fun bins => average_value_of_bins data bins)

/-- The smoothing filter (`smoothen_data_of_bins_within_radius` in
`average.rs`): recompute `data` from the per-bin neighbour averages,
keep every other field (Rust struct-update syntax `..densmap`). -/
def smoothen_data_of_bins_within_radius (densmap : DensMap ℚ) (radius : ℚ) : DensMap ℚ :=
  let neighbours := get_system_bin_neighbours radius densmap.bin_size densmap.shape
  { densmap with data := get_averaged_system densmap.data neighbours }

/-- A concrete 1x1 uniform grid with unit bins; its single bin's sieve at
radius 1 partly falls outside the grid. -/
def dmBoundary : DensMap ℚ :=
  { bin_size := (1, 1, 1)
    origin := (0, 0)
    shape := (1, 1)
    center := (0, 0)
    data := [2] }

/-- Histogram data with bin center points and values (`Histogram` in
`graphdata.rs`). -/
structure Histogram where
  x : List ℚ
  y : List ℚ
  deriving DecidableEq

/-- Keep the values at or above `perc` percent of the maximum
(`cut_bins_below_percentage_of_max` in `radial_density.rs`); the maximum is
folded starting from `0.0` exactly as in the source. -/
def cut_bins_below_percentage_of_max (values : List ℚ) (perc : ℚ) : List ℚ :=
  let m := values.foldl (fun (acc : ℚ) v => max acc v) 0
  let cutoff := 1 / 100 * perc * m
  values.filter (fun v => decide (cutoff ≤ v))

/-- Rust's `f64::round` (round half away from zero) composed with the
saturating `as usize` cast, for the nonnegative arguments appearing in the
percentile index computation. -/
def round_as_usize (q : ℚ) : Nat := ⌊q + 1 / 2⌋.toNat

/-- Percentile-value extraction (`get_percentile_values` in
`radial_density.rs`): validation errors are the inner `Except.error`; the
outer `Option` is `none` exactly when the unchecked indexing
`sorted_values[i]` would panic. -/
def get_percentile_values (values : List ℚ) (lower upper : ℚ) :
    Option (Except String (ℚ × ℚ)) :=
  if values = [] then
    some (.error "cannot compute percentile values from an empty array")
  else if lower < 0 ∨ lower > 100 then
    some (.error "lower percentile value must be between 0 and 100")
  else if upper < 0 ∨ upper > 100 then
    some (.error "upper percentile value must be between 0 and 100")
  else
    let sorted_values := values.mergeSort (fun a b => decide (a ≤ b))
    let ilower := round_as_usize (1 / 100 * lower * (sorted_values.length : ℚ))
    let iupper := round_as_usize (1 / 100 * upper * (sorted_values.length : ℚ))
    match sorted_values[ilower]?, sorted_values[iupper]? with
    | some a, some b => some (.ok (a, b))
    | _, _ => none

/-- Rust's `Iterator::rposition`: the index of the last element satisfying
the predicate, searching from the back. -/
def rposition (p : α → Bool) : List α → Option Nat
  | [] => none
  | a :: t =>
    match rposition p t with
    | some j => some (j + 1)
    | none => if p a then some 0 else none

/-- Radius extraction (`get_radius_from_distribution` in
`radial_density.rs`).  The source first drops non-finite y-values; over the
`ℚ` model of `f64` every value is finite, so that filter is the identity and
`density` is `radial_density.y` itself.  The outer `Option` is `none`
exactly when the source panics (percentile indexing out of bounds, the
`rposition` unwrap, or the final `radial_density.x[i]`); `Except.error` is
the typed error propagated by the `?` operator. -/
def get_radius_from_distribution (radial_density : Histogram) :
    Option (Except String ℚ) :=
  let density := radial_density.y
  let density_nonzero := cut_bins_below_percentage_of_max density 1
  match get_percentile_values density_nonzero 10 90 with
  | none => none
  | some (.error e) => some (.error e)
  | some (.ok (lower_density, upper_density)) =>
    let mid_density := 1 / 2 * (lower_density + upper_density)
    match rposition (fun v => decide (mid_density ≤ v)) density with
    | none => none
    | some i =>
      match radial_density.x[i]? with
      | some r => some (.ok r)
      | none => none

/-- The spec's description of the radius extraction, stated independently of
the source: filter at 1 percent of the maximum, sort the filtered values and
index at `round(0.01*p*n)` for the 10th and 90th percentiles, take the
midpoint, then scan the original distribution from the outer radius inward
(the reversed index range) and return the x-value of the first bin whose y
is at or above the midpoint. -/
def spec_radius_from_distribution (hist : Histogram) : Option ℚ :=
  let maxy := hist.y.foldl (fun (acc : ℚ) v => max acc v) 0
  let filtered := hist.y.filter (fun v => decide (1 / 100 * 1 * maxy ≤ v))
  let sorted := filtered.mergeSort (fun a b => decide (a ≤ b))
  match sorted[round_as_usize (1 / 100 * 10 * (filtered.length : ℚ))]?,
      sorted[round_as_usize (1 / 100 * 90 * (filtered.length : ℚ))]? with
  | some p10, some p90 =>
    let mid := (p10 + p90) / 2
    match (List.range hist.y.length).reverse.find? (fun i => decide (mid ≤ hist.y.getD i 0)) with
    | some i => hist.x[i]?
    | none => none
  | _, _ => none

/-- Search direction of the per-angle interface walk (`Direction` in
`sample_interface.rs`). -/
inductive Direction
  | Increasing
  | Decreasing
  deriving DecidableEq

/-- The Phase-1 loop of `get_initial_radius_and_direction` in
`sample_interface.rs`, modelled with fuel (`none` = the loop has not
stopped within `fuel` iterations).  The angle enters only through its
direction vector, so the model takes `(ux, uy) = (cos angle, sin angle)`
as parameters.  Each iteration samples `center - origin + radius*(ux, uy)`;
if the sample is inside the grid the loop breaks with the radius and the
direction classified by the cutoff, otherwise the radius shrinks by `dr`
and the loop retries — there is no other exit in the source. -/
def get_initial_radius_and_direction (fuel : Nat) (densmap : DensMap ℚ)
    (cutoff ux uy dr radius : ℚ) : Option (ℚ × Direction) :=
  match fuel with
  | 0 => none
  | fuel + 1 =>
    let x0 := densmap.center.1 - densmap.origin.1
    let y0 := densmap.center.2 - densmap.origin.2
    let x := x0 + radius * ux
    let y := y0 + radius * uy
    match coord2index x y densmap.bin_size densmap.shape with
    | some index =>
        some (radius,
          if densmap.data.getD index 0 ≥ cutoff then Direction.Increasing
          else Direction.Decreasing)
    | none => get_initial_radius_and_direction fuel densmap cutoff ux uy dr (radius - dr)

/-- Whether the ray sample at radius `r` falls inside the grid. -/
def phase1_sample_inside (densmap : DensMap ℚ) (ux uy r : ℚ) : Prop :=
  (coord2index (densmap.center.1 - densmap.origin.1 + r * ux)
    (densmap.center.2 - densmap.origin.2 + r * uy)
    densmap.bin_size densmap.shape).isSome

/-- Phase 1 terminates on the given input: some fuel suffices for the loop
to stop. -/
def phase1_terminates (densmap : DensMap ℚ) (cutoff ux uy dr radius : ℚ) : Prop :=
  ∃ fuel out,
    get_initial_radius_and_direction fuel densmap cutoff ux uy dr radius = some out

/-- The signed step `dr` of `sample_interface_at_angle`: `+dr_abs` when the
radius increases, `-dr_abs` when it decreases. -/
def signed_step (direction : Direction) (dr_abs : ℚ) : ℚ :=
  match direction with
  | Direction.Increasing => dr_abs
  | Direction.Decreasing => -dr_abs

/-- The Phase-2 boundary walk of `sample_interface_at_angle` in
`sample_interface.rs` (`while radius >= dr { radius += dr; ... }`),
modelled with fuel.  Returns the list of radii at which samples were taken
together with the final radius (`none` = fuel exhausted mid-loop).  As in
Phase 1 the angle enters through `(ux, uy) = (cos angle, sin angle)`. -/
def sample_interface_walk (fuel : Nat) (densmap : DensMap ℚ) (cutoff ux uy : ℚ)
    (direction : Direction) (dr_abs radius : ℚ) : List ℚ × Option ℚ :=
  let dr := signed_step direction dr_abs
  if radius ≥ dr then
    match fuel with
    | 0 => ([], none)
    | fuel + 1 =>
      let x0 := densmap.center.1 - densmap.origin.1
      let y0 := densmap.center.2 - densmap.origin.2
      let radius' := radius + dr
      let x := x0 + radius' * ux
      let y := y0 + radius' * uy
      match coord2index x y densmap.bin_size densmap.shape with
      | some i =>
        match direction with
        | Direction.Increasing =>
          if densmap.data.getD i 0 ≥ cutoff then
            let rest :=
              sample_interface_walk fuel densmap cutoff ux uy direction dr_abs radius'
            (radius' :: rest.1, rest.2)
          else ([radius'], some (radius' - dr))
        | Direction.Decreasing =>
          if densmap.data.getD i 0 ≥ cutoff then ([radius'], some radius')
          else
            let rest :=
              sample_interface_walk fuel densmap cutoff ux uy direction dr_abs radius'
            (radius' :: rest.1, rest.2)
      | none => ([radius'], some (radius' - dr))
  else ([], some radius)

/-- A grid whose center lies below the grid (`center.y - origin.y < 0`):
along the direction `(1, 0)` no sample at any radius is ever inside. -/
def dmOffCenter : DensMap ℚ :=
  { bin_size := (1, 1, 1)
    origin := (0, 0)
    shape := (1, 1)
    center := (1 / 2, -5)
    data := [1] }

/-- A 1x1 grid with the droplet center in its middle, used to drive the
inward walk below one step size. -/
def dmWalk : DensMap ℚ :=
  { bin_size := (1, 1, 1)
    origin := (0, 0)
    shape := (1, 1)
    center := (1 / 2, 1 / 2)
    data := [2] }

/-- Little-endian byte encoding of a value into `k` bytes, the model of
byteorder's `write_u64::<LittleEndian>` / `write_f64` (an `f64` is written
as its 8-byte bit pattern; the codec never does arithmetic on it, so the
model carries the bit pattern as a `Nat` below `2^64`). -/
def u64ToLE : Nat → Nat → List Nat
  | 0, _ => []
  | k + 1, n => n % 256 :: u64ToLE k (n / 256)

/-- One 64-bit little-endian word as 8 bytes. -/
def write_u64 (n : Nat) : List Nat := u64ToLE 8 n

/-- `write_densmap_to_writer` in `densmap.rs`: bin_size (3 words), origin
(2), shape (2), center (2), time (1), then the data values, all
little-endian, no header. -/
def write_densmap_to_writer (densmap : DensMap Nat) (time : Nat) : List Nat :=
  write_u64 densmap.bin_size.1 ++ write_u64 densmap.bin_size.2.1 ++
  write_u64 densmap.bin_size.2.2 ++
  write_u64 densmap.origin.1 ++ write_u64 densmap.origin.2 ++
  write_u64 densmap.shape.1 ++ write_u64 densmap.shape.2 ++
  write_u64 densmap.center.1 ++ write_u64 densmap.center.2 ++
  write_u64 time ++
  densmap.data.flatMap write_u64

/-- Little-endian decoding of `k` bytes from the stream; `none` models the
reader's I/O error when the stream ends early. -/
def readLE : Nat → List Nat → Option (Nat × List Nat)
  | 0, s => some (0, s)
  | _ + 1, [] => none
  | k + 1, b :: s =>
    match readLE k s with
    | some (m, rest) => some (b + 256 * m, rest)
    | none => none

/-- One 64-bit little-endian word from the stream. -/
def read_u64 (s : List Nat) : Option (Nat × List Nat) := readLE 8 s

/-- Read `k` consecutive words (the `for _ in 0..num_bins` data loop). -/
def read_vals : Nat → List Nat → Option (List Nat × List Nat)
  | 0, s => some ([], s)
  | k + 1, s =>
    match read_u64 s with
    | some (v, s1) =>
      match read_vals k s1 with
      | some (vs, s2) => some (v :: vs, s2)
      | none => none
    | none => none

/-- `read_densmap_from_reader` in `densmap.rs`: the fields in write order;
`num_bins = nx * ny` is a `u64` product, hence reduced mod `2^64`. -/
def read_densmap_from_reader (s : List Nat) : Option ((DensMap Nat × Nat) × List Nat) :=
  match read_u64 s with
  | none => none
  | some (b0, s) =>
  match read_u64 s with
  | none => none
  | some (b1, s) =>
  match read_u64 s with
  | none => none
  | some (b2, s) =>
  match read_u64 s with
  | none => none
  | some (o0, s) =>
  match read_u64 s with
  | none => none
  | some (o1, s) =>
  match read_u64 s with
  | none => none
  | some (nx, s) =>
  match read_u64 s with
  | none => none
  | some (ny, s) =>
  match read_u64 s with
  | none => none
  | some (c0, s) =>
  match read_u64 s with
  | none => none
  | some (c1, s) =>
  match read_u64 s with
  | none => none
  | some (time, s) =>
  match read_vals (nx * ny % 2 ^ 64) s with
  | none => none
  | some (data, s) =>
    some ((⟨(b0, b1, b2), (o0, o1), (nx, ny), (c0, c1), data⟩, time), s)

/-- The compressed write path: the raw bytes run through a compressor
(flate2's gzip in the source, abstracted to any function here). -/
def write_densmap_gz (gz : List Nat → List Nat) (densmap : DensMap Nat)
    (time : Nat) : List Nat :=
  gz (write_densmap_to_writer densmap time)

/-- The compressed read path: the stream runs through the decompressor
before parsing. -/
def read_densmap_gz (gunzip : List Nat → List Nat) (s : List Nat) :
    Option ((DensMap Nat × Nat) × List Nat) :=
  read_densmap_from_reader (gunzip s)

/-- A concrete small grid for the codec round-trip. -/
def dmCodec : DensMap Nat :=
  { bin_size := (1, 2, 3)
    origin := (4, 5)
    shape := (1, 1)
    center := (6, 7)
    data := [9] }

/-- Result of Rust's `slice::binary_search_by`: `found i` models `Ok(i)`
(index of an element comparing equal), `notFound i` models `Err(i)` (the
insertion point). -/
inductive SearchResult
  | found : Nat → SearchResult
  | notFound : Nat → SearchResult
  deriving DecidableEq

/-- The loop of Rust's `slice::binary_search_by` over the half-open
interval `[left, right)`: probe `mid = left + (right - left)/2`; element
less than the target moves `left` past `mid`, greater moves `right` to
`mid`, equal returns `found mid`; an empty interval returns
`notFound left`.  The comparator is `x1.partial_cmp(x)` — total on the
`ℚ` model of finite doubles. -/
def binarySearchAux (xs : List ℚ) (x : ℚ) (left right : Nat) : SearchResult :=
  if h : left < right then
    let mid := left + (right - left) / 2
    let v := xs.getD mid 0
    if v < x then binarySearchAux xs x (mid + 1) right
    else if x < v then binarySearchAux xs x left mid
    else .found mid
  else .notFound left
termination_by right - left
decreasing_by
  · omega
  · omega

/-- `from_xs.binary_search_by(|x1| x1.partial_cmp(x))` over the whole
slice. -/
def binary_search_by (xs : List ℚ) (x : ℚ) : SearchResult :=
  binarySearchAux xs x 0 xs.length

/-- The per-target body of `interpolate_data` in `graphdata.rs`: an exact
binary-search hit returns the matching y; otherwise the insertion point is
clamped to a bracketing index pair ((0,1) at the left edge,
(len-2, len-1) at the right edge, (i-1, i) in between) and the linear
interpolation formula of the source is applied. -/
def interpolate_one (from_xs ys : List ℚ) (x : ℚ) : ℚ :=
  match binary_search_by from_xs x with
  | .found i => ys.getD i 0
  | .notFound i =>
    let p := if i = 0 then (0, 1)
      else if i = from_xs.length then (i - 2, i - 1)
      else (i - 1, i)
    let x0 := from_xs.getD p.1 0
    let x1 := from_xs.getD p.2 0
    let y0 := ys.getD p.1 0
    let y1 := ys.getD p.2 0
    (y0 * (x1 - x) + y1 * (x - x0)) / (x1 - x0)

/-- `interpolate_data` in `graphdata.rs`: resample each target x. -/
def interpolate_data (from_xs ys onto_xs : List ℚ) : List ℚ :=
  onto_xs.map (fun x => interpolate_one from_xs ys x)

/-! ### Theorems -/

theorem mem_intRange {a b x : Int} : x ∈ intRange a b ↔ a ≤ x ∧ x ≤ b := by
  simp only [intRange, List.mem_map, List.mem_range]
  constructor
  · rintro ⟨k, hk, rfl⟩
    constructor <;> omega
  · intro h
    exact ⟨(x - a).toNat, by omega, by omega⟩

theorem mem_get_averaging_bin_sieve {radius dx dy dz : ℚ} {p : Int × Int} :
    p ∈ get_averaging_bin_sieve radius (dx, dy, dz) ↔
      -⌈radius / dx⌉ ≤ p.1 ∧ p.1 ≤ ⌈radius / dx⌉ ∧
      -⌈radius / dy⌉ ≤ p.2 ∧ p.2 ≤ ⌈radius / dy⌉ ∧
      ((p.1 : ℚ) * dx) ^ 2 + ((p.2 : ℚ) * dy) ^ 2 ≤ radius ^ 2 := by
  obtain ⟨a, b⟩ := p
  simp only [get_averaging_bin_sieve, List.mem_flatMap, List.mem_filterMap, mem_intRange,
    Option.ite_none_right_eq_some, Option.some.injEq, Prod.mk.injEq]
  constructor
  · rintro ⟨ix, hix, iy, hiy, hc, rfl, rfl⟩
    exact ⟨hix.1, hix.2, hiy.1, hiy.2, hc⟩
  · rintro ⟨h1, h2, h3, h4, h5⟩
    exact ⟨a, ⟨h1, h2⟩, b, ⟨h3, h4⟩, h5, rfl, rfl⟩

/-- The zero offset belongs to the sieve for every nonnegative radius and
positive bin sizes. -/
theorem zero_mem_get_averaging_bin_sieve {radius dx dy dz : ℚ}
    (hr : 0 ≤ radius) (hdx : 0 < dx) (hdy : 0 < dy) :
    ((0, 0) : Int × Int) ∈ get_averaging_bin_sieve radius (dx, dy, dz) := by
  rw [mem_get_averaging_bin_sieve]
  have hx : (0 : Int) ≤ ⌈radius / dx⌉ := Int.ceil_nonneg (by positivity)
  have hy : (0 : Int) ≤ ⌈radius / dy⌉ := Int.ceil_nonneg (by positivity)
  refine ⟨by omega, by omega, by omega, by omega, ?_⟩
  simpa using sq_nonneg radius

theorem sieve_mem_neg_left {radius dx dy dz : ℚ} (di dj : Int) :
    (di, dj) ∈ get_averaging_bin_sieve radius (dx, dy, dz) ↔
      (-di, dj) ∈ get_averaging_bin_sieve radius (dx, dy, dz) := by
  rw [mem_get_averaging_bin_sieve, mem_get_averaging_bin_sieve]
  have h : (((-di : Int) : ℚ) * dx) ^ 2 = ((di : ℚ) * dx) ^ 2 := by push_cast; ring
  rw [h]
  constructor <;> rintro ⟨h1, h2, h3, h4, h5⟩ <;> exact ⟨by omega, by omega, h3, h4, h5⟩

theorem sieve_mem_neg_right {radius dx dy dz : ℚ} (di dj : Int) :
    (di, dj) ∈ get_averaging_bin_sieve radius (dx, dy, dz) ↔
      (di, -dj) ∈ get_averaging_bin_sieve radius (dx, dy, dz) := by
  rw [mem_get_averaging_bin_sieve, mem_get_averaging_bin_sieve]
  have h : (((-dj : Int) : ℚ) * dy) ^ 2 = ((dj : ℚ) * dy) ^ 2 := by push_cast; ring
  rw [h]
  constructor <;> rintro ⟨h1, h2, h3, h4, h5⟩ <;> exact ⟨h1, h2, by omega, by omega, h5⟩

/-- Reconstructing the 1D index from the 2D position given by `index2tuple`
recovers the index. -/
theorem tuple2index_of_index2tuple {i nx ny : Nat} (h : i < nx * ny) :
    tuple2index ((i % nx : Nat) : Int) ((i / nx : Nat) : Int) (nx, ny) = some i := by
  rcases Nat.eq_zero_or_pos nx with h0 | hnx
  · subst h0; simp at h
  have hmod : i % nx < nx := Nat.mod_lt _ hnx
  have hdiv : i / nx < ny := Nat.div_lt_iff_lt_mul hnx |>.mpr (by rwa [Nat.mul_comm])
  unfold tuple2index
  rw [if_pos]
  · have hnat : i / nx * nx + i % nx = i := Nat.div_add_mod' i nx
    have harith : ((i / nx : Nat) : Int) * ((nx : Nat) : Int) + ((i % nx : Nat) : Int)
        = (i : Int) := by
      have := congrArg (fun t : Nat => (t : Int)) hnat
      push_cast at this
      simpa using this
    simp only [harith, Int.toNat_natCast]
  · refine ⟨Int.natCast_nonneg _, ?_, Int.natCast_nonneg _, ?_⟩ <;> exact_mod_cast ‹_›

/-- Every bin is its own neighbour whenever the zero offset is in the sieve. -/
theorem self_mem_get_bin_neighbours {i nx ny : Nat} (h : i < nx * ny)
    {sieve : List (Int × Int)} (hz : ((0, 0) : Int × Int) ∈ sieve) :
    i ∈ get_bin_neighbours i (nx, ny) sieve := by
  simp only [get_bin_neighbours, index2tuple, if_pos h]
  refine List.mem_filterMap.mpr ⟨(0, 0), hz, ?_⟩
  simpa using tuple2index_of_index2tuple h

/-- Neighbour indices produced by `get_bin_neighbours` are in bounds. -/
theorem mem_get_bin_neighbours_lt {i nx ny j : Nat} {sieve : List (Int × Int)}
    (hj : j ∈ get_bin_neighbours i (nx, ny) sieve) : j < nx * ny := by
  unfold get_bin_neighbours at hj
  rcases hi : index2tuple i (nx, ny) with _ | ⟨a, b⟩ <;> rw [hi] at hj
  · simp at hj
  obtain ⟨pq, hp, ht⟩ := List.mem_filterMap.mp hj
  unfold tuple2index at ht
  dsimp only at ht
  split_ifs at ht with hc
  · obtain ⟨h1, h2, h3, h4⟩ := hc
    have hlt : ((b : Int) + pq.2) * (nx : Int) + ((a : Int) + pq.1)
        < ((nx * ny : Nat) : Int) := by
      have step : ((b : Int) + pq.2) * (nx : Int) + ((a : Int) + pq.1)
          < ((b : Int) + pq.2 + 1) * (nx : Int) := by nlinarith
      have step2 : ((b : Int) + pq.2 + 1) * (nx : Int) ≤ (ny : Int) * (nx : Int) := by
        have hle : (b : Int) + pq.2 + 1 ≤ (ny : Int) := by omega
        nlinarith [Int.natCast_nonneg nx]
      have hcast : ((nx * ny : Nat) : Int) = (nx : Int) * (ny : Int) := by push_cast; ring
      rw [hcast]
      nlinarith
    obtain rfl := Option.some.inj ht
    have hz : 0 ≤ ((b : Int) + pq.2) * (nx : Int) + ((a : Int) + pq.1) := by
      have := mul_nonneg h3 (Int.natCast_nonneg nx)
      omega
    have hne : nx * ny ≠ 0 := by
      intro h0
      rw [h0] at hlt
      exact absurd hlt (by simpa using hz)
    exact (Int.toNat_lt' hne).mpr hlt

/-- The average of bins whose data values all equal `c` is `c`, for a
nonempty, in-bounds index list. -/
theorem average_value_of_bins_const {data : List ℚ} {bins : List Nat} {c : ℚ}
    (hall : ∀ v ∈ data, v = c) (hb : bins ≠ [])
    (hvalid : ∀ j ∈ bins, j < data.length) :
    average_value_of_bins data bins = c := by
  unfold average_value_of_bins
  rw [if_neg hb]
  have hmap : bins.map (fun i => data.getD i 0) = bins.map (fun _ => c) := by
    refine List.map_congr_left ?_
    intro j hj
    have hlt := hvalid j hj
    have : data.getD j 0 ∈ data := by
      rw [List.getD_eq_getElem data 0 hlt]
      exact List.getElem_mem hlt
    exact hall _ this
  rw [hmap]
  have hrep : bins.map (fun _ => c) = List.replicate bins.length c := by
    rw [List.eq_replicate_iff]
    exact ⟨by simp, by simp +contextual⟩
  rw [hrep, List.sum_replicate, nsmul_eq_mul]
  have hn : (bins.length : ℚ) ≠ 0 := by
    simpa using hb
  rw [mul_comm, mul_div_assoc, div_self hn, mul_one]

/-- C8: `smoothen_data_of_bins_within_radius` returns a grid whose geometry
(`bin_size`, `origin`, `shape`, `center`) is identical to the input grid's,
with only the `data` field recomputed from the per-bin neighbour averages;
the recomputed data has one value per grid bin.  The embedding is a pure
function: a new grid value is produced and the input is untouched. -/
theorem smoothen_preserves_geometry (dm : DensMap ℚ) (radius : ℚ) :
    (smoothen_data_of_bins_within_radius dm radius).bin_size = dm.bin_size ∧
    (smoothen_data_of_bins_within_radius dm radius).origin = dm.origin ∧
    (smoothen_data_of_bins_within_radius dm radius).shape = dm.shape ∧
    (smoothen_data_of_bins_within_radius dm radius).center = dm.center ∧
    (smoothen_data_of_bins_within_radius dm radius).data =
      get_averaged_system dm.data (get_system_bin_neighbours radius dm.bin_size dm.shape) ∧
    (smoothen_data_of_bins_within_radius dm radius).data.length
      = dm.shape.1 * dm.shape.2 := by
  refine ⟨rfl, rfl, rfl, rfl, rfl, ?_⟩
  simp [smoothen_data_of_bins_within_radius, get_averaged_system, get_system_bin_neighbours]

/-- C9: for every nonnegative radius and equal positive bin sizes, the
neighbour sieve contains the zero offset and is symmetric under negation of
either axis. -/
theorem sieve_contains_zero_and_is_symmetric (radius dx dy dz : ℚ)
    (hr : 0 ≤ radius) (hdx : 0 < dx) (heq : dy = dx) :
    ((0, 0) : Int × Int) ∈ get_averaging_bin_sieve radius (dx, dy, dz) ∧
    (∀ di dj : Int, (di, dj) ∈ get_averaging_bin_sieve radius (dx, dy, dz) ↔
        (-di, dj) ∈ get_averaging_bin_sieve radius (dx, dy, dz)) ∧
    (∀ di dj : Int, (di, dj) ∈ get_averaging_bin_sieve radius (dx, dy, dz) ↔
        (di, -dj) ∈ get_averaging_bin_sieve radius (dx, dy, dz)) := by
  subst heq
  exact ⟨zero_mem_get_averaging_bin_sieve hr hdx hdx,
    fun di dj => sieve_mem_neg_left di dj,
    fun di dj => sieve_mem_neg_right di dj⟩

theorem sieve_contains_zero_and_is_symmetric_witness :
    ((0, 0) : Int × Int) ∈ get_averaging_bin_sieve 1 (1, 1, 0) :=
  (sieve_contains_zero_and_is_symmetric 1 1 1 0 (by norm_num) (by norm_num) rfl).1

/-- C3 (amended): smoothing a grid whose values are all equal to `c`, with a
nonnegative radius and positive bin sizes, changes no bin at all — interior
or boundary — because every bin's neighbour list contains the bin itself and
the average of equal values is that value. -/
theorem smoothen_uniform_grid_is_identity (dm : DensMap ℚ) (c radius : ℚ)
    (hall : ∀ v ∈ dm.data, v = c)
    (hlen : dm.data.length = dm.shape.1 * dm.shape.2)
    (hr : 0 ≤ radius) (hdx : 0 < dm.bin_size.1) (hdy : 0 < dm.bin_size.2.1) :
    smoothen_data_of_bins_within_radius dm radius = dm := by
  obtain ⟨⟨dx, dy, dz⟩, org, ⟨nx, ny⟩, cen, data⟩ := dm
  dsimp only at hall hlen hdx hdy
  simp only [smoothen_data_of_bins_within_radius, DensMap.mk.injEq, true_and]
  have hdata : data = List.replicate (nx * ny) c := by
    rw [List.eq_replicate_iff]
    exact ⟨hlen, hall⟩
  have havg : ∀ i ∈ List.range (nx * ny),
      average_value_of_bins data
        (get_bin_neighbours i (nx, ny) (get_averaging_bin_sieve radius (dx, dy, dz))) = c := by
    intro i hi
    have hi' : i < nx * ny := List.mem_range.mp hi
    apply average_value_of_bins_const hall
    · exact List.ne_nil_of_mem
        (self_mem_get_bin_neighbours hi' (zero_mem_get_averaging_bin_sieve hr hdx hdy))
    · intro j hj
      rw [hlen]
      exact mem_get_bin_neighbours_lt hj
  have hout : get_averaged_system data
      (get_system_bin_neighbours radius (dx, dy, dz) (nx, ny))
      = List.replicate (nx * ny) c := by
    rw [List.eq_replicate_iff]
    constructor
    · simp [get_averaged_system, get_system_bin_neighbours]
    · intro b hb
      simp only [get_averaged_system, get_system_bin_neighbours, List.map_map,
        List.mem_map, List.mem_range, Function.comp] at hb
      obtain ⟨i, hi, rfl⟩ := hb
      exact havg i (List.mem_range.mpr hi)
  rw [hout, ← hdata]

theorem smoothen_uniform_grid_is_identity_witness :
    smoothen_data_of_bins_within_radius
      { bin_size := (1, 1, 1), origin := (0, 0), shape := (2, 2),
        center := (0, 0), data := [3, 3, 3, 3] } 1
    = { bin_size := (1, 1, 1), origin := (0, 0), shape := (2, 2),
        center := (0, 0), data := [3, 3, 3, 3] } := by
  apply smoothen_uniform_grid_is_identity _ 3 1
  · intro v hv
    simp only [List.mem_cons, List.not_mem_nil, or_false] at hv
    rcases hv with h | h | h | h <;> exact h
  · rfl
  · norm_num
  · norm_num
  · norm_num

/-- C3 counterexample: on the concrete 1x1 uniform grid `dmBoundary`, the
single bin is a boundary bin — its sieve at radius 1 partly falls outside
the grid (only 1 of the 5 sieve offsets stays inside) — yet smoothing
leaves its value unchanged, contradicting "exactly the boundary bins
change". -/
theorem smoothen_uniform_boundary_bin_unchanged :
    (smoothen_data_of_bins_within_radius dmBoundary 1).data = dmBoundary.data ∧
    (get_bin_neighbours 0 dmBoundary.shape
        (get_averaging_bin_sieve 1 dmBoundary.bin_size)).length
      < (get_averaging_bin_sieve 1 dmBoundary.bin_size).length := by
  have hs : get_averaging_bin_sieve 1 (1, 1, 1)
      = [(-1, 0), (0, -1), (0, 0), (0, 1), (1, 0)] := by
    rw [get_averaging_bin_sieve]
    norm_num
    rw [show intRange (-1) 1 = [-1, 0, 1] from by decide]
    norm_num [List.flatMap, List.filterMap]
  constructor
  · show (smoothen_data_of_bins_within_radius dmBoundary 1).data = [2]
    simp only [smoothen_data_of_bins_within_radius, dmBoundary, get_averaged_system,
      get_system_bin_neighbours, hs]
    rw [show List.range (1 * 1) = [0] from by decide]
    simp only [List.map_cons, List.map_nil]
    rw [show get_bin_neighbours 0 (1, 1) [(-1, 0), (0, -1), (0, 0), (0, 1), (1, 0)] = [0]
      from by decide]
    norm_num [average_value_of_bins]
  · show (get_bin_neighbours 0 (1, 1) (get_averaging_bin_sieve 1 (1, 1, 1))).length
        < (get_averaging_bin_sieve 1 (1, 1, 1)).length
    rw [hs]
    decide

/-- C5: `get_percentile_values` returns a typed error (an `Except.error`,
never a panic and never a value) on an empty input list and on a lower or
upper percentile outside `[0, 100]`. -/
theorem get_percentile_values_error_on_invalid (values : List ℚ) (lower upper : ℚ)
    (h : values = [] ∨ lower < 0 ∨ lower > 100 ∨ upper < 0 ∨ upper > 100) :
    ∃ e, get_percentile_values values lower upper = some (.error e) := by
  unfold get_percentile_values
  split_ifs with h1 h2 h3
  · exact ⟨_, rfl⟩
  · exact ⟨_, rfl⟩
  · exact ⟨_, rfl⟩
  · exfalso
    push_neg at h2 h3
    rcases h with h | h | h | h | h
    · exact h1 h
    · linarith [h2.1]
    · linarith [h2.2]
    · linarith [h3.1]
    · linarith [h3.2]

theorem get_percentile_values_error_on_invalid_witness :
    ∃ e, get_percentile_values [] 10 90 = some (.error e) :=
  get_percentile_values_error_on_invalid [] 10 90 (Or.inl rfl)

/-- Characterization of `rposition`: it fails exactly when no element
satisfies the predicate, and succeeds with `i` exactly when `i` is the
greatest satisfying index. -/
theorem rposition_char {α : Type} (p : α → Bool) (d : α) (l : List α) :
    (rposition p l = none ↔ ∀ j, j < l.length → p (l.getD j d) = false) ∧
    (∀ i, rposition p l = some i ↔ i < l.length ∧ p (l.getD i d) = true ∧
      ∀ j, j < l.length → i < j → p (l.getD j d) = false) := by
  induction l with
  | nil =>
    refine ⟨by simp [rposition], fun i => by simp [rposition]⟩
  | cons a t ih =>
    obtain ⟨ihn, ihs⟩ := ih
    cases ht : rposition p t with
    | some j =>
      obtain ⟨hjlt, hjp, hjmax⟩ := (ihs j).mp ht
      constructor
      · constructor
        · intro h
          simp [rposition, ht] at h
        · intro hallf
          have h1 := hallf (j + 1) (by simpa using Nat.succ_lt_succ hjlt)
          rw [List.getD_cons_succ, hjp] at h1
          exact absurd h1 (by simp)
      · intro i
        simp only [rposition, ht, Option.some.injEq]
        constructor
        · rintro rfl
          refine ⟨by simpa using Nat.succ_lt_succ hjlt, by simpa using hjp, ?_⟩
          intro m hm hjm
          cases m with
          | zero => omega
          | succ k =>
            rw [List.getD_cons_succ]
            exact hjmax k (by simpa using hm) (by omega)
        · rintro ⟨hi, hpi, hmax⟩
          rcases Nat.lt_trichotomy (j + 1) i with hgt | heq | hlt
          · cases i with
            | zero => omega
            | succ k =>
              rw [List.getD_cons_succ] at hpi
              have := hjmax k (by simpa using hi) (by omega)
              rw [hpi] at this
              exact absurd this (by simp)
          · exact heq
          · have h1 := hmax (j + 1) (by simpa using Nat.succ_lt_succ hjlt) hlt
            rw [List.getD_cons_succ, hjp] at h1
            exact absurd h1 (by simp)
    | none =>
      have hall := ihn.mp ht
      constructor
      · constructor
        · intro h
          simp only [rposition, ht] at h
          intro m hm
          cases m with
          | zero =>
            rw [List.getD_cons_zero]
            by_contra hpa
            rw [if_pos (by simpa using hpa)] at h
            exact absurd h (by simp)
          | succ k =>
            rw [List.getD_cons_succ]
            exact hall k (by simpa using hm)
        · intro hallf
          simp only [rposition, ht]
          rw [if_neg]
          have h0 := hallf 0 (by simp)
          rw [List.getD_cons_zero] at h0
          simp [h0]
      · intro i
        simp only [rposition, ht]
        cases hpa : p a with
        | true =>
          rw [if_pos rfl]
          simp only [Option.some.injEq]
          constructor
          · rintro rfl
            refine ⟨by simp, by simpa using hpa, ?_⟩
            intro m hm h0m
            cases m with
            | zero => omega
            | succ k =>
              rw [List.getD_cons_succ]
              exact hall k (by simpa using hm)
          · rintro ⟨hi, hpi, hmax⟩
            cases i with
            | zero => rfl
            | succ k =>
              rw [List.getD_cons_succ] at hpi
              have := hall k (by simpa using hi)
              rw [hpi] at this
              exact absurd this (by simp)
        | false =>
          rw [if_neg (by simp)]
          constructor
          · intro h
            exact absurd h (by simp)
          · rintro ⟨hi, hpi, hmax⟩
            cases i with
            | zero =>
              rw [List.getD_cons_zero] at hpi
              rw [hpi] at hpa
              exact absurd hpa (by simp)
            | succ k =>
              rw [List.getD_cons_succ] at hpi
              have := hall k (by simpa using hi)
              rw [hpi] at this
              exact absurd this (by simp)

/-- A satisfying element guarantees `rposition` succeeds. -/
theorem rposition_isSome_of_mem {α : Type} {p : α → Bool} {l : List α} {v : α}
    (hv : v ∈ l) (hp : p v = true) (d : α) : ∃ i, rposition p l = some i := by
  cases h : rposition p l with
  | some i => exact ⟨i, rfl⟩
  | none =>
    exfalso
    obtain ⟨⟨idx, hlt⟩, rfl⟩ := List.mem_iff_get.mp hv
    have hfalse := ((rposition_char p d l).1.mp h) idx hlt
    rw [List.getD_eq_getElem l d hlt] at hfalse
    rw [List.get_eq_getElem] at hp
    rw [hp] at hfalse
    exact absurd hfalse (by simp)

/-- Characterization of scanning the reversed index range: `find?` over
`(List.range n).reverse` returns the greatest index below `n` satisfying
the predicate. -/
theorem revRangeFind_eq_some_iff (q : Nat → Bool) (n i : Nat) :
    (List.range n).reverse.find? q = some i ↔
      i < n ∧ q i = true ∧ ∀ j, i < j → j < n → q j = false := by
  induction n with
  | zero => simp
  | succ n ih =>
    have hrev : (List.range (n + 1)).reverse = n :: (List.range n).reverse := by
      rw [List.range_succ, List.reverse_append]
      rfl
    rw [hrev]
    cases hq : q n with
    | true =>
      rw [List.find?_cons_of_pos _ hq]
      simp only [Option.some.injEq]
      constructor
      · rintro rfl
        exact ⟨by omega, hq, fun j h1 h2 => by omega⟩
      · rintro ⟨hi, hqi, hmax⟩
        rcases Nat.lt_trichotomy i n with hlt | heq | hgt
        · have := hmax n hlt (by omega)
          rw [hq] at this
          exact absurd this (by simp)
        · omega
        · omega
    | false =>
      rw [List.find?_cons_of_neg _ (by simp [hq])]
      rw [ih]
      constructor
      · rintro ⟨hi, hqi, hmax⟩
        refine ⟨by omega, hqi, ?_⟩
        intro j h1 h2
        rcases Nat.lt_trichotomy j n with hlt | heq | hgt
        · exact hmax j h1 hlt
        · subst heq; exact hq
        · omega
      · rintro ⟨hi, hqi, hmax⟩
        have hin : i ≠ n := by
          rintro rfl
          rw [hqi] at hq
          exact absurd hq (by simp)
        exact ⟨by omega, hqi, fun j h1 h2 => hmax j h1 (by omega)⟩

/-- The comparator used by the source's `sort_by(partial_cmp)` is a total
order on `ℚ`, so `mergeSort` yields a `≤`-sorted list. -/
theorem mergeSort_rat_pairwise (l : List ℚ) :
    List.Pairwise (fun a b : ℚ => a ≤ b) (l.mergeSort (fun a b => decide (a ≤ b))) := by
  have h := @List.sorted_mergeSort ℚ (fun a b : ℚ => decide (a ≤ b))
    (fun a b c hab hbc => by
      simp only [decide_eq_true_eq] at *
      linarith)
    (fun a b => by simpa using le_total a b)
    l
  exact h.imp (by simp)

/-- Entries of a `≤`-pairwise list are monotone in the index. -/
theorem pairwise_getD_le {l : List ℚ} (hs : List.Pairwise (fun a b : ℚ => a ≤ b) l)
    {i j : Nat} (hij : i ≤ j) (hj : j < l.length) : l.getD i 0 ≤ l.getD j 0 := by
  rcases eq_or_lt_of_le hij with rfl | hlt
  · exact le_refl _
  · have h := List.pairwise_iff_get.mp hs ⟨i, by omega⟩ ⟨j, hj⟩ (by simpa using hlt)
    rw [List.getD_eq_getElem l 0 (by omega), List.getD_eq_getElem l 0 hj]
    simpa using h

/-- With all validation checks passed, `get_percentile_values` reduces to
the double indexing of the sorted list. -/
theorem get_percentile_values_reduce (values : List ℚ) (lower upper : ℚ)
    (hne : ¬values = []) (hl : ¬(lower < 0 ∨ lower > 100))
    (hu : ¬(upper < 0 ∨ upper > 100)) :
    get_percentile_values values lower upper =
      match (values.mergeSort (fun a b => decide (a ≤ b)))[round_as_usize
              (1 / 100 * lower * (values.length : ℚ))]?,
            (values.mergeSort (fun a b => decide (a ≤ b)))[round_as_usize
              (1 / 100 * upper * (values.length : ℚ))]? with
        | some a, some b => some (.ok (a, b))
        | _, _ => none := by
  simp only [get_percentile_values, if_neg hne, if_neg hl, if_neg hu,
    List.length_mergeSort]

/-- If the upper percentile index reaches the array length, the source
panics (`none` in the model). -/
theorem get_percentile_values_none_of_round_out (values : List ℚ) (lower upper : ℚ)
    (hne : ¬values = []) (hl : ¬(lower < 0 ∨ lower > 100))
    (hu : ¬(upper < 0 ∨ upper > 100))
    (hiu : values.length ≤ round_as_usize (1 / 100 * upper * (values.length : ℚ))) :
    get_percentile_values values lower upper = none := by
  rw [get_percentile_values_reduce values lower upper hne hl hu]
  have e2 : (values.mergeSort (fun a b => decide (a ≤ b)))[round_as_usize
      (1 / 100 * upper * (values.length : ℚ))]? = none :=
    List.getElem?_eq_none (by rw [List.length_mergeSort]; exact hiu)
  rcases h1 : (values.mergeSort (fun a b => decide (a ≤ b)))[round_as_usize
      (1 / 100 * lower * (values.length : ℚ))]? with _ | a <;> rw [e2]

/-- C6: with a non-empty input and percentiles inside `[0, 100]`,
`get_percentile_values` returns `Ok` exactly when both rounded indices are
strictly below the length; when an index reaches the length the unchecked
indexing panics (the model's `none`, not a typed error).  The index reaches
the length for percentile 100 on any non-empty input and for percentile 90
on exactly 5 values (`round(4.5) = 5`), so `get_radius_from_distribution`
on a distribution with exactly 5 surviving filtered bins neither returns a
value nor a typed error. -/
theorem get_percentile_values_ok_iff_indices_in_bounds (values : List ℚ)
    (lower upper : ℚ) (hne : values ≠ []) (hl0 : 0 ≤ lower) (hl1 : lower ≤ 100)
    (hu0 : 0 ≤ upper) (hu1 : upper ≤ 100) :
    ((∃ pr, get_percentile_values values lower upper = some (.ok pr)) ↔
      round_as_usize (1 / 100 * lower * (values.length : ℚ)) < values.length ∧
      round_as_usize (1 / 100 * upper * (values.length : ℚ)) < values.length) ∧
    (upper = 100 → get_percentile_values values lower upper = none) ∧
    (values.length = 5 → upper = 90 → get_percentile_values values lower upper = none) ∧
    get_radius_from_distribution { x := [1, 2, 3, 4, 5], y := [10, 10, 10, 10, 10] }
      = none := by
  have hl : ¬(lower < 0 ∨ lower > 100) := by push_neg; exact ⟨hl0, hl1⟩
  have hu : ¬(upper < 0 ∨ upper > 100) := by push_neg; exact ⟨hu0, hu1⟩
  refine ⟨?_, ?_, ?_, ?_⟩
  · rw [get_percentile_values_reduce values lower upper hne hl hu]
    constructor
    · rintro ⟨pr, hpr⟩
      rcases h1 : (values.mergeSort (fun a b => decide (a ≤ b)))[round_as_usize
          (1 / 100 * lower * (values.length : ℚ))]? with _ | a <;>
        rcases h2 : (values.mergeSort (fun a b => decide (a ≤ b)))[round_as_usize
          (1 / 100 * upper * (values.length : ℚ))]? with _ | b <;>
        rw [h1, h2] at hpr <;> try simp at hpr
      constructor
      · by_contra hge
        rw [List.getElem?_eq_none (by rw [List.length_mergeSort]; omega)] at h1
        exact absurd h1 (by simp)
      · by_contra hge
        rw [List.getElem?_eq_none (by rw [List.length_mergeSort]; omega)] at h2
        exact absurd h2 (by simp)
    · rintro ⟨hil, hiu⟩
      rw [List.getElem?_eq_getElem (by rw [List.length_mergeSort]; exact hil),
        List.getElem?_eq_getElem (by rw [List.length_mergeSort]; exact hiu)]
      exact ⟨_, rfl⟩
  · intro h100
    subst h100
    apply get_percentile_values_none_of_round_out values lower 100 hne hl hu
    have h1 : (1 : ℚ) / 100 * 100 * (values.length : ℚ) = (values.length : ℚ) := by
      ring
    unfold round_as_usize
    rw [h1]
    have h2 : ⌊(values.length : ℚ) + 1 / 2⌋ = (values.length : Int) := by
      refine Int.floor_eq_iff.mpr ⟨by norm_num, by push_cast; norm_num⟩
    rw [h2, Int.toNat_natCast]
  · intro h5 h90
    subst h90
    apply get_percentile_values_none_of_round_out values lower 90 hne hl hu
    rw [h5]
    have h1 : (1 : ℚ) / 100 * 90 * ((5 : Nat) : ℚ) = 9 / 2 := by norm_num
    unfold round_as_usize
    rw [h1]
    norm_num
  · have hcut : cut_bins_below_percentage_of_max [10, 10, 10, 10, 10] 1
        = [10, 10, 10, 10, 10] := by
      norm_num [cut_bins_below_percentage_of_max, List.foldl, List.filter]
    have hpv : get_percentile_values [10, 10, 10, 10, 10] 10 90 = none := by
      apply get_percentile_values_none_of_round_out _ 10 90 (by simp)
        (by norm_num) (by norm_num)
      norm_num [round_as_usize]
    simp only [get_radius_from_distribution, hcut, hpv]

theorem get_percentile_values_ok_iff_indices_in_bounds_witness :
    get_percentile_values [1, 2, 3, 4, 5] 10 90 = none :=
  (get_percentile_values_ok_iff_indices_in_bounds [1, 2, 3, 4, 5] 10 90
    (by simp) (by norm_num) (by norm_num) (by norm_num) (by norm_num)).2.2.1 rfl rfl

/-- C4 counterexample: the histogram `x = [1], y = [10]` has all-finite
y-values and exactly one value surviving the 1-percent-of-maximum filter,
yet `get_radius_from_distribution` panics (`round(0.9 * 1) = 1` indexes one
past the end of the sorted list): it returns neither a value nor a typed
error. -/
theorem radius_from_distribution_panics_on_single_surviving_bin :
    (cut_bins_below_percentage_of_max (Histogram.mk [1] [10]).y 1).length = 1 ∧
    get_radius_from_distribution (Histogram.mk [1] [10]) = none := by
  have hcut : cut_bins_below_percentage_of_max [10] 1 = [10] := by
    norm_num [cut_bins_below_percentage_of_max, List.foldl, List.filter]
  constructor
  · rw [show (Histogram.mk [1] [10]).y = [10] from rfl, hcut]
    rfl
  · have hpv : get_percentile_values [10] 10 90 = none := by
      apply get_percentile_values_none_of_round_out _ 10 90 (by simp)
        (by norm_num) (by norm_num)
      norm_num [round_as_usize]
    simp only [get_radius_from_distribution, hcut, hpv]

/-- C4 (amended): for a histogram with as many x- as y-values whose
y-values are all finite (automatic in the `ℚ` model) and at least SIX of
whose y-values survive the 1-percent-of-maximum filter — six, because for
1 to 5 survivors `round(0.9n) = n` indexes out of bounds —
`get_radius_from_distribution` returns exactly the value described by the
spec: sort the filtered values, index at `round(0.01*p*n)` for p = 10 and
p = 90, take the midpoint of the two percentile values, scan the original
distribution from the outer radius inward and return the x-value of the
first bin whose y is at or above that midpoint. -/
theorem radius_from_distribution_matches_spec (hist : Histogram)
    (hxy : hist.x.length = hist.y.length)
    (hn : 6 ≤ (cut_bins_below_percentage_of_max hist.y 1).length) :
    ∃ r, get_radius_from_distribution hist = some (.ok r) ∧
      spec_radius_from_distribution hist = some r := by
  set F := cut_bins_below_percentage_of_max hist.y 1 with hF
  set L := F.mergeSort (fun a b => decide (a ≤ b)) with hL
  have hLlen : L.length = F.length := List.length_mergeSort F
  set il := round_as_usize (1 / 100 * 10 * (F.length : ℚ)) with hil
  set iu := round_as_usize (1 / 100 * 90 * (F.length : ℚ)) with hiu
  have hFlen : (6 : ℚ) ≤ (F.length : ℚ) := by exact_mod_cast hn
  have hFne : F ≠ [] := List.ne_nil_of_length_pos (by omega)
  have hil_lt : il < F.length := by
    rw [hil, round_as_usize]
    rw [Int.toNat_lt' (by omega)]
    rw [Int.floor_lt]
    push_cast
    linarith
  have hiu_lt : iu < F.length := by
    rw [hiu, round_as_usize]
    rw [Int.toNat_lt' (by omega)]
    rw [Int.floor_lt]
    push_cast
    linarith
  have hil_le_iu : il ≤ iu := by
    rw [hil, hiu, round_as_usize, round_as_usize]
    apply Int.toNat_le_toNat
    apply Int.floor_le_floor
    linarith
  have hpv : get_percentile_values F 10 90 = some (.ok (L.getD il 0, L.getD iu 0)) := by
    rw [get_percentile_values_reduce F 10 90 hFne (by norm_num) (by norm_num)]
    rw [← hL, ← hil, ← hiu]
    rw [List.getElem?_eq_getElem (by omega), List.getElem?_eq_getElem (by omega)]
    rw [List.getD_eq_getElem L 0 (by omega), List.getD_eq_getElem L 0 (by omega)]
  have hsorted := mergeSort_rat_pairwise F
  have hlohi : L.getD il 0 ≤ L.getD iu 0 := by
    apply pairwise_getD_le (hL ▸ hsorted) hil_le_iu
    omega
  have hmid_le : 1 / 2 * (L.getD il 0 + L.getD iu 0) ≤ L.getD iu 0 := by linarith
  have hhi_mem : L.getD iu 0 ∈ hist.y := by
    have h1 : L.getD iu 0 ∈ L := by
      rw [List.getD_eq_getElem L 0 (by omega)]
      exact List.getElem_mem _
    have h2 : L.getD iu 0 ∈ F := (hL ▸ List.mem_mergeSort).mp h1
    rw [hF, cut_bins_below_percentage_of_max] at h2
    exact (List.mem_filter.mp h2).1
  obtain ⟨i, hips⟩ := @rposition_isSome_of_mem ℚ
    (fun v => decide (1 / 2 * (L.getD il 0 + L.getD iu 0) ≤ v)) hist.y (L.getD iu 0)
    hhi_mem (decide_eq_true hmid_le) 0
  obtain ⟨hi_lt, hpi, hmax⟩ :=
    ((rposition_char (fun v => decide (1 / 2 * (L.getD il 0 + L.getD iu 0) ≤ v))
      (0 : ℚ) hist.y).2 i).mp hips
  have hx_lt : i < hist.x.length := by omega
  refine ⟨hist.x.getD i 0, ?_, ?_⟩
  · simp only [get_radius_from_distribution]
    rw [← hF, hpv]
    dsimp only
    rw [hips]
    dsimp only
    rw [List.getElem?_eq_getElem hx_lt, List.getD_eq_getElem _ 0 hx_lt]
  · simp only [spec_radius_from_distribution]
    rw [show hist.y.filter
        (fun v => decide (1 / 100 * 1 * (hist.y.foldl (fun (acc : ℚ) v => max acc v) 0) ≤ v))
        = F from rfl]
    rw [← hL, ← hil, ← hiu]
    rw [List.getElem?_eq_getElem (by omega), List.getElem?_eq_getElem (by omega)]
    rw [← List.getD_eq_getElem L 0 (show il < L.length by omega),
      ← List.getD_eq_getElem L 0 (show iu < L.length by omega)]
    have hfind : (List.range hist.y.length).reverse.find?
        (fun j => decide ((L.getD il 0 + L.getD iu 0) / 2 ≤ hist.y.getD j 0)) = some i := by
      rw [revRangeFind_eq_some_iff]
      refine ⟨hi_lt, ?_, ?_⟩
      · rw [show (L.getD il 0 + L.getD iu 0) / 2 = 1 / 2 * (L.getD il 0 + L.getD iu 0)
          from by ring]
        exact hpi
      · intro j h1 h2
        rw [show (L.getD il 0 + L.getD iu 0) / 2 = 1 / 2 * (L.getD il 0 + L.getD iu 0)
          from by ring]
        exact hmax j h2 h1
    dsimp only
    rw [hfind]
    dsimp only
    rw [List.getElem?_eq_getElem hx_lt, List.getD_eq_getElem _ 0 hx_lt]

theorem radius_from_distribution_matches_spec_witness :
    ∃ r, get_radius_from_distribution (Histogram.mk [1, 2, 3, 4, 5, 6] [1, 2, 3, 4, 5, 6])
        = some (.ok r) ∧
      spec_radius_from_distribution (Histogram.mk [1, 2, 3, 4, 5, 6] [1, 2, 3, 4, 5, 6])
        = some r :=
  radius_from_distribution_matches_spec (Histogram.mk [1, 2, 3, 4, 5, 6] [1, 2, 3, 4, 5, 6])
    rfl
    (by norm_num [cut_bins_below_percentage_of_max, List.foldl, List.filter])

/-- On `dmOffCenter` along direction `(1, 0)` every sample has y-coordinate
`-5`, outside the grid, so the Phase-1 loop never stops, with any fuel and
from any starting radius. -/
theorem phase1_off_grid_none (fuel : Nat) :
    ∀ radius : ℚ, get_initial_radius_and_direction fuel dmOffCenter 1 1 0 1 radius
      = none := by
  induction fuel with
  | zero => intro radius; rfl
  | succ f ih =>
    intro radius
    simp only [get_initial_radius_and_direction]
    have hy : coord2index (dmOffCenter.center.1 - dmOffCenter.origin.1 + radius * 1)
        (dmOffCenter.center.2 - dmOffCenter.origin.2 + radius * 0)
        dmOffCenter.bin_size dmOffCenter.shape = none := by
      simp only [dmOffCenter, coord2index, tuple2index]
      rw [if_neg]
      rintro ⟨h1, h2, h3, h4⟩
      have hval : (-5 - 0 + radius * 0 : ℚ) / 1 = -5 := by ring
      rw [hval] at h3
      have : ⌊(-5 : ℚ)⌋ = -5 := by norm_num
      rw [this] at h3
      omega
    rw [hy]
    exact ih (radius - 1)

/-- C1 counterexample: on the concrete grid `dmOffCenter` (droplet center
below the grid), with direction `(1, 0)`, step 1 and base radius 1, the
Phase-1 loop of `get_initial_radius_and_direction` never terminates: it has
no stop at radius zero and no sample along the ray is ever inside the
grid. -/
theorem phase1_does_not_terminate_off_grid :
    ¬ phase1_terminates dmOffCenter 1 1 0 1 1 := by
  rintro ⟨fuel, out, hout⟩
  rw [phase1_off_grid_none fuel 1] at hout
  exact absurd hout (by simp)

/-- Whenever Phase 1 stops, the returned radius is a stepped radius
`radius - k*dr` whose sample is inside the grid, classified by the
cutoff. -/
theorem phase1_some_char (densmap : DensMap ℚ) (cutoff ux uy dr : ℚ) (fuel : Nat) :
    ∀ radius r d,
      get_initial_radius_and_direction fuel densmap cutoff ux uy dr radius
        = some (r, d) →
      ∃ k : Nat, ∃ i : Nat, r = radius - k * dr ∧
        coord2index (densmap.center.1 - densmap.origin.1 + r * ux)
          (densmap.center.2 - densmap.origin.2 + r * uy)
          densmap.bin_size densmap.shape = some i ∧
        (d = Direction.Increasing ↔ densmap.data.getD i 0 ≥ cutoff) := by
  induction fuel with
  | zero => intro radius r d h; exact absurd h (by simp [get_initial_radius_and_direction])
  | succ f ih =>
    intro radius r d h
    simp only [get_initial_radius_and_direction] at h
    rcases hc : coord2index (densmap.center.1 - densmap.origin.1 + radius * ux)
        (densmap.center.2 - densmap.origin.2 + radius * uy)
        densmap.bin_size densmap.shape with _ | i <;> rw [hc] at h
    · obtain ⟨k, i, hr, hin, hd⟩ := ih (radius - dr) r d h
      refine ⟨k + 1, i, ?_, hin, hd⟩
      rw [hr]
      push_cast
      ring
    · simp only [Option.some.injEq, Prod.mk.injEq] at h
      obtain ⟨rfl, rfl⟩ := h
      refine ⟨0, i, by simp, hc, ?_⟩
      split_ifs with hcut
      · exact ⟨fun _ => hcut, fun _ => rfl⟩
      · simp only [ge_iff_le] at hcut
        constructor
        · intro hcontra
          exact absurd hcontra (by simp)
        · intro hle
          exact absurd hle hcut

/-- If some stepped radius samples inside the grid, Phase 1 stops with
enough fuel. -/
theorem phase1_some_of_inside (densmap : DensMap ℚ) (cutoff ux uy dr : ℚ) (k : Nat) :
    ∀ radius : ℚ, phase1_sample_inside densmap ux uy (radius - k * dr) →
      phase1_terminates densmap cutoff ux uy dr radius := by
  induction k with
  | zero =>
    intro radius h
    rw [phase1_sample_inside] at h
    rw [show radius - ((0 : Nat) : ℚ) * dr = radius from by push_cast; ring] at h
    obtain ⟨i, hi⟩ := Option.isSome_iff_exists.mp h
    exact ⟨1, (radius, if densmap.data.getD i 0 ≥ cutoff then Direction.Increasing
        else Direction.Decreasing),
      by simp only [get_initial_radius_and_direction]; rw [hi]⟩
  | succ k ih =>
    intro radius h
    rcases hc : coord2index (densmap.center.1 - densmap.origin.1 + radius * ux)
        (densmap.center.2 - densmap.origin.2 + radius * uy)
        densmap.bin_size densmap.shape with _ | i
    · have h' : phase1_sample_inside densmap ux uy ((radius - dr) - (k : ℚ) * dr) := by
        have heq : (radius - dr) - (k : ℚ) * dr = radius - ((k + 1 : Nat) : ℚ) * dr := by
          push_cast
          ring
        rw [phase1_sample_inside, heq]
        exact h
      obtain ⟨fuel, out, hout⟩ := ih (radius - dr) h'
      exact ⟨fuel + 1, out,
        by simp only [get_initial_radius_and_direction]; rw [hc]; exact hout⟩
    · exact ⟨1, (radius, if densmap.data.getD i 0 ≥ cutoff then Direction.Increasing
          else Direction.Decreasing),
        by simp only [get_initial_radius_and_direction]; rw [hc]⟩

/-- C1 (amended): the Phase-1 loop of `get_initial_radius_and_direction`
has no zero-radius stop: it steps inward by `dr` and stops exactly when a
sample lands inside the grid.  It terminates if and only if some stepped
radius `base_radius - k*dr` samples inside the grid (so it runs forever
when the ray never meets the grid), and when it stops the returned radius
is such an in-grid stepped radius with the direction Increasing exactly
when the density there is at least the cutoff. -/
theorem phase1_terminates_iff_ray_hits_grid (densmap : DensMap ℚ)
    (cutoff ux uy dr radius : ℚ) :
    (phase1_terminates densmap cutoff ux uy dr radius ↔
      ∃ k : Nat, phase1_sample_inside densmap ux uy (radius - k * dr)) ∧
    (∀ fuel r d,
      get_initial_radius_and_direction fuel densmap cutoff ux uy dr radius
        = some (r, d) →
      ∃ k : Nat, ∃ i : Nat, r = radius - k * dr ∧
        coord2index (densmap.center.1 - densmap.origin.1 + r * ux)
          (densmap.center.2 - densmap.origin.2 + r * uy)
          densmap.bin_size densmap.shape = some i ∧
        (d = Direction.Increasing ↔ densmap.data.getD i 0 ≥ cutoff)) := by
  constructor
  · constructor
    · rintro ⟨fuel, ⟨r, d⟩, hout⟩
      obtain ⟨k, i, hr, hin, _⟩ :=
        phase1_some_char densmap cutoff ux uy dr fuel radius r d hout
      refine ⟨k, ?_⟩
      rw [phase1_sample_inside, ← hr, hin]
      rfl
    · rintro ⟨k, h⟩
      exact phase1_some_of_inside densmap cutoff ux uy dr k radius h
  · exact fun fuel r d h => phase1_some_char densmap cutoff ux uy dr fuel radius r d h

theorem phase1_terminates_iff_ray_hits_grid_witness :
    ∃ k : Nat, ∃ i : Nat, (0 : ℚ) = 0 - k * 1 ∧
      coord2index (dmWalk.center.1 - dmWalk.origin.1 + 0 * 1)
        (dmWalk.center.2 - dmWalk.origin.2 + 0 * 0)
        dmWalk.bin_size dmWalk.shape = some i ∧
      (Direction.Increasing = Direction.Increasing ↔ dmWalk.data.getD i 0 ≥ 1) :=
  (phase1_terminates_iff_ray_hits_grid dmWalk 1 1 0 1 0).2 1 0 Direction.Increasing
    (by norm_num [get_initial_radius_and_direction, coord2index, tuple2index, dmWalk])

/-- C2 counterexample: on `dmWalk` with direction `(1, 0)`, inward walk
(`Decreasing`), step size 1 and starting radius `1/2`, the Phase-2 loop's
guard `radius >= dr` compares against the signed step `-1`, so the walk
takes a sample at radius `-1/2` — strictly below one step size (and even
negative), contradicting "at no iteration of the walk is a sample taken at
a radius smaller than one step size". -/
theorem walk_takes_sample_below_one_step :
    (sample_interface_walk 5 dmWalk 1 1 0 Direction.Decreasing 1 (1 / 2)).1
      = [-(1 / 2)] ∧ (-(1 / 2) : ℚ) < 1 := by
  constructor
  · rw [sample_interface_walk.eq_def]
    rw [if_pos (by norm_num [signed_step])]
    dsimp only
    rw [show coord2index (dmWalk.center.1 - dmWalk.origin.1
          + (1 / 2 + signed_step Direction.Decreasing 1) * 1)
        (dmWalk.center.2 - dmWalk.origin.2
          + (1 / 2 + signed_step Direction.Decreasing 1) * 0)
        dmWalk.bin_size dmWalk.shape = some 0 from by
      norm_num [dmWalk, coord2index, tuple2index, signed_step]]
    dsimp only
    rw [if_pos (by norm_num [dmWalk])]
    norm_num [signed_step]
  · norm_num

/-- C2 (amended): the Phase-2 walk's guard compares the radius against the
SIGNED step `dr` (`+step` outward, `-step` inward): the walk stops
immediately once the radius falls below the signed step, and every sample
is taken at a radius of at least twice the signed step — at least `2*step`
when walking outward, but as low as `-2*step` when walking inward. -/
theorem walk_guard_is_signed_step (densmap : DensMap ℚ) (cutoff ux uy dr_abs radius : ℚ)
    (direction : Direction) (fuel : Nat) :
    (radius < signed_step direction dr_abs →
      sample_interface_walk fuel densmap cutoff ux uy direction dr_abs radius
        = ([], some radius)) ∧
    (∀ r ∈ (sample_interface_walk fuel densmap cutoff ux uy direction dr_abs radius).1,
      2 * signed_step direction dr_abs ≤ r) := by
  constructor
  · intro hlt
    rw [sample_interface_walk.eq_def]
    rw [if_neg (not_le.mpr hlt)]
  · induction fuel generalizing radius with
    | zero =>
      intro r hr
      rw [sample_interface_walk.eq_def] at hr
      by_cases hg : radius ≥ signed_step direction dr_abs
      · rw [if_pos hg] at hr
        simp at hr
      · rw [if_neg hg] at hr
        simp at hr
    | succ f ih =>
      intro r hr
      rw [sample_interface_walk.eq_def] at hr
      by_cases hg : radius ≥ signed_step direction dr_abs
      · rw [if_pos hg] at hr
        dsimp only at hr
        rcases hc : coord2index (densmap.center.1 - densmap.origin.1
              + (radius + signed_step direction dr_abs) * ux)
            (densmap.center.2 - densmap.origin.2
              + (radius + signed_step direction dr_abs) * uy)
            densmap.bin_size densmap.shape with _ | i <;> rw [hc] at hr
        · simp only [List.mem_singleton] at hr
          subst hr
          linarith
        · cases direction with
          | Increasing =>
            dsimp only at hr
            split_ifs at hr with hfill
            · rcases List.mem_cons.mp hr with rfl | htail
              · linarith
              · exact ih (radius + signed_step Direction.Increasing dr_abs) r htail
            · simp only [List.mem_singleton] at hr
              subst hr
              linarith
          | Decreasing =>
            dsimp only at hr
            split_ifs at hr with hfill
            · simp only [List.mem_singleton] at hr
              subst hr
              linarith
            · rcases List.mem_cons.mp hr with rfl | htail
              · linarith
              · exact ih (radius + signed_step Direction.Decreasing dr_abs) r htail
      · rw [if_neg hg] at hr
        simp at hr

theorem walk_guard_is_signed_step_witness :
    sample_interface_walk 5 dmWalk 1 1 0 Direction.Decreasing 1 (-2) = ([], some (-2)) ∧
    2 * signed_step Direction.Increasing 1 ≤ 2 :=
  ⟨(walk_guard_is_signed_step dmWalk 1 1 0 1 (-2) Direction.Decreasing 5).1
      (by norm_num [signed_step]),
   (walk_guard_is_signed_step dmWalk 1 1 0 1 1 Direction.Increasing 5).2 2 (by
      rw [sample_interface_walk.eq_def]
      rw [if_pos (by norm_num [signed_step])]
      dsimp only
      rw [show coord2index (dmWalk.center.1 - dmWalk.origin.1
            + (1 + signed_step Direction.Increasing 1) * 1)
          (dmWalk.center.2 - dmWalk.origin.2
            + (1 + signed_step Direction.Increasing 1) * 0)
          dmWalk.bin_size dmWalk.shape = none from by
        norm_num [dmWalk, coord2index, tuple2index, signed_step]]
      dsimp only
      norm_num [signed_step])⟩

/-- Little-endian decode inverts encode up to the word size. -/
theorem readLE_u64ToLE (k : Nat) :
    ∀ (n : Nat) (rest : List Nat),
      readLE k (u64ToLE k n ++ rest) = some (n % 256 ^ k, rest) := by
  induction k with
  | zero =>
    intro n rest
    simp [u64ToLE, readLE, Nat.mod_one]
  | succ k ih =>
    intro n rest
    simp only [u64ToLE, List.cons_append, readLE, List.append_eq]
    rw [ih (n / 256) rest]
    have hmod : n % 256 ^ (k + 1) = n % 256 + 256 * (n / 256 % 256 ^ k) := by
      rw [pow_succ', Nat.mod_mul]
    rw [hmod]

/-- A word below `2^64` round-trips through the 8-byte encoding. -/
theorem read_u64_write_u64 {n : Nat} (h : n < 2 ^ 64) (rest : List Nat) :
    read_u64 (write_u64 n ++ rest) = some (n, rest) := by
  rw [read_u64, write_u64, readLE_u64ToLE]
  have h8 : (256 : Nat) ^ 8 = 2 ^ 64 := by norm_num
  rw [h8, Nat.mod_eq_of_lt h]

/-- A list of words below `2^64` round-trips through the data loop. -/
theorem read_vals_write (data : List Nat) (h : ∀ v ∈ data, v < 2 ^ 64) :
    ∀ rest : List Nat,
      read_vals data.length (data.flatMap write_u64 ++ rest) = some (data, rest) := by
  induction data with
  | nil => intro rest; simp [read_vals]
  | cons v t ih =>
    intro rest
    simp only [List.flatMap_cons, List.length_cons, read_vals, List.append_assoc]
    rw [read_u64_write_u64 (h v (by simp)) (t.flatMap write_u64 ++ rest)]
    dsimp only
    rw [ih (fun w hw => h w (by simp [hw])) rest]

/-- C7: writing a grid (whose data length matches its shape and whose
bit-pattern words fit in 64 bits) and reading the byte stream back yields
bit-exactly the same bin size, origin, shape, center, time and data — and
the same holds through the compressed path for any compressor/decompressor
pair that round-trips byte streams (the contract of the external gzip
codec). -/
theorem densmap_write_read_roundtrip (densmap : DensMap Nat) (time : Nat)
    (hb0 : densmap.bin_size.1 < 2 ^ 64) (hb1 : densmap.bin_size.2.1 < 2 ^ 64)
    (hb2 : densmap.bin_size.2.2 < 2 ^ 64)
    (ho0 : densmap.origin.1 < 2 ^ 64) (ho1 : densmap.origin.2 < 2 ^ 64)
    (hnx : densmap.shape.1 < 2 ^ 64) (hny : densmap.shape.2 < 2 ^ 64)
    (hc0 : densmap.center.1 < 2 ^ 64) (hc1 : densmap.center.2 < 2 ^ 64)
    (ht : time < 2 ^ 64)
    (hdata : ∀ v ∈ densmap.data, v < 2 ^ 64)
    (hlen : densmap.data.length = densmap.shape.1 * densmap.shape.2)
    (hbins : densmap.shape.1 * densmap.shape.2 < 2 ^ 64) :
    (read_densmap_from_reader (write_densmap_to_writer densmap time)
      = some ((densmap, time), [])) ∧
    (∀ gz gunzip : List Nat → List Nat, (∀ s, gunzip (gz s) = s) →
      read_densmap_gz gunzip (write_densmap_gz gz densmap time)
        = some ((densmap, time), [])) := by
  have hmain : read_densmap_from_reader (write_densmap_to_writer densmap time)
      = some ((densmap, time), []) := by
    rw [write_densmap_to_writer, read_densmap_from_reader]
    simp only [List.append_assoc]
    rw [read_u64_write_u64 hb0]
    dsimp only
    rw [read_u64_write_u64 hb1]
    dsimp only
    rw [read_u64_write_u64 hb2]
    dsimp only
    rw [read_u64_write_u64 ho0]
    dsimp only
    rw [read_u64_write_u64 ho1]
    dsimp only
    rw [read_u64_write_u64 hnx]
    dsimp only
    rw [read_u64_write_u64 hny]
    dsimp only
    rw [read_u64_write_u64 hc0]
    dsimp only
    rw [read_u64_write_u64 hc1]
    dsimp only
    rw [read_u64_write_u64 ht]
    dsimp only
    rw [Nat.mod_eq_of_lt hbins, ← hlen]
    have hdone := read_vals_write densmap.data hdata []
    rw [List.append_nil] at hdone
    rw [hdone]
  refine ⟨hmain, fun gz gunzip hinv => ?_⟩
  rw [read_densmap_gz, write_densmap_gz, hinv]
  exact hmain

theorem densmap_write_read_roundtrip_witness :
    (read_densmap_from_reader (write_densmap_to_writer dmCodec 8)
      = some ((dmCodec, 8), [])) ∧
    (read_densmap_gz id (write_densmap_gz id dmCodec 8) = some ((dmCodec, 8), [])) :=
  ⟨(densmap_write_read_roundtrip dmCodec 8 (by norm_num [dmCodec]) (by norm_num [dmCodec])
      (by norm_num [dmCodec]) (by norm_num [dmCodec]) (by norm_num [dmCodec])
      (by norm_num [dmCodec]) (by norm_num [dmCodec]) (by norm_num [dmCodec])
      (by norm_num [dmCodec]) (by norm_num)
      (by intro v hv; simp only [dmCodec, List.mem_singleton] at hv; omega)
      (by norm_num [dmCodec]) (by norm_num [dmCodec])).1,
   (densmap_write_read_roundtrip dmCodec 8 (by norm_num [dmCodec]) (by norm_num [dmCodec])
      (by norm_num [dmCodec]) (by norm_num [dmCodec]) (by norm_num [dmCodec])
      (by norm_num [dmCodec]) (by norm_num [dmCodec]) (by norm_num [dmCodec])
      (by norm_num [dmCodec]) (by norm_num)
      (by intro v hv; simp only [dmCodec, List.mem_singleton] at hv; omega)
      (by norm_num [dmCodec]) (by norm_num [dmCodec])).2 id id (fun s => rfl)⟩

/-- Entries of a strictly sorted list are nondecreasing in the index. -/
theorem strict_getD_le {l : List ℚ} (hs : List.Pairwise (fun a b : ℚ => a < b) l)
    {i j : Nat} (hij : i ≤ j) (hj : j < l.length) : l.getD i 0 ≤ l.getD j 0 :=
  pairwise_getD_le (hs.imp (fun h => le_of_lt h)) hij hj

/-- Entries of a strictly sorted list are increasing in the index. -/
theorem strict_getD_lt {l : List ℚ} (hs : List.Pairwise (fun a b : ℚ => a < b) l)
    {i j : Nat} (hij : i < j) (hj : j < l.length) : l.getD i 0 < l.getD j 0 := by
  have h := List.pairwise_iff_get.mp hs ⟨i, by omega⟩ ⟨j, hj⟩ (by simpa using hij)
  rw [List.getD_eq_getElem l 0 (by omega), List.getD_eq_getElem l 0 hj]
  simpa using h

/-- Correctness of the binary-search loop on a strictly sorted list, under
the loop invariant: everything left of `left` is below the target and
everything from `right` on is above it. -/
theorem binarySearchAux_correct (xs : List ℚ) (x : ℚ)
    (hs : List.Pairwise (fun a b : ℚ => a < b) xs) (left right : Nat) :
    left ≤ right → right ≤ xs.length →
    (∀ j, j < left → xs.getD j 0 < x) →
    (∀ j, right ≤ j → j < xs.length → x < xs.getD j 0) →
    ((∀ i, binarySearchAux xs x left right = .found i →
        i < xs.length ∧ xs.getD i 0 = x) ∧
     (∀ p, binarySearchAux xs x left right = .notFound p →
        p ≤ xs.length ∧ (∀ j, j < p → xs.getD j 0 < x) ∧
        (∀ j, p ≤ j → j < xs.length → x < xs.getD j 0))) := by
  refine binarySearchAux.induct xs x
    (fun left right =>
      left ≤ right → right ≤ xs.length →
      (∀ j, j < left → xs.getD j 0 < x) →
      (∀ j, right ≤ j → j < xs.length → x < xs.getD j 0) →
      ((∀ i, binarySearchAux xs x left right = .found i →
          i < xs.length ∧ xs.getD i 0 = x) ∧
       (∀ p, binarySearchAux xs x left right = .notFound p →
          p ≤ xs.length ∧ (∀ j, j < p → xs.getD j 0 < x) ∧
          (∀ j, p ≤ j → j < xs.length → x < xs.getD j 0))))
    ?_ ?_ ?_ ?_ left right
  · intro left right hlr
    dsimp only
    intro hvx ih hle hrlen hlow hhigh
    rw [binarySearchAux.eq_def, dif_pos hlr]
    dsimp only
    rw [if_pos hvx]
    apply ih (by omega) hrlen
    · intro j hj
      rcases Nat.lt_or_ge j (left + (right - left) / 2) with h | h
      · calc xs.getD j 0 ≤ xs.getD (left + (right - left) / 2) 0 :=
              strict_getD_le hs (by omega) (by omega)
          _ < x := hvx
      · have hj' : j = left + (right - left) / 2 := by omega
        rw [hj']
        exact hvx
    · exact hhigh
  · intro left right hlr
    dsimp only
    intro hnvx hxv ih hle hrlen hlow hhigh
    rw [binarySearchAux.eq_def, dif_pos hlr]
    dsimp only
    rw [if_neg hnvx, if_pos hxv]
    apply ih (by omega) (by omega) hlow
    · intro j hj hjlen
      calc x < xs.getD (left + (right - left) / 2) 0 := hxv
        _ ≤ xs.getD j 0 := strict_getD_le hs hj hjlen
  · intro left right hlr
    dsimp only
    intro hnvx hnxv hle hrlen hlow hhigh
    rw [binarySearchAux.eq_def, dif_pos hlr]
    dsimp only
    rw [if_neg hnvx, if_neg hnxv]
    constructor
    · intro i hi
      simp only [SearchResult.found.injEq] at hi
      subst hi
      exact ⟨by omega, le_antisymm (not_lt.mp hnxv) (not_lt.mp hnvx)⟩
    · intro p hp
      exact absurd hp (by simp)
  · intro left right hlr hle hrlen hlow hhigh
    have heq : left = right := by omega
    rw [binarySearchAux.eq_def, dif_neg hlr]
    constructor
    · intro i hi
      exact absurd hi (by simp)
    · intro p hp
      simp only [SearchResult.notFound.injEq] at hp
      subst hp
      exact ⟨by omega, hlow, fun j hj hjlen => hhigh j (by omega) hjlen⟩

/-- Binary search over the whole slice, with the vacuous outer
invariant. -/
theorem binary_search_by_correct (xs : List ℚ) (x : ℚ)
    (hs : List.Pairwise (fun a b : ℚ => a < b) xs) :
    (∀ i, binary_search_by xs x = .found i → i < xs.length ∧ xs.getD i 0 = x) ∧
    (∀ p, binary_search_by xs x = .notFound p →
      p ≤ xs.length ∧ (∀ j, j < p → xs.getD j 0 < x) ∧
      (∀ j, p ≤ j → j < xs.length → x < xs.getD j 0)) :=
  binarySearchAux_correct xs x hs 0 xs.length (by omega) (le_refl _)
    (fun j hj => absurd hj (Nat.not_lt_zero j))
    (fun j h1 h2 => by omega)

/-- An exact hit: a target equal to a source x-value returns the matching
y-value. -/
theorem interpolate_one_exact {from_xs ys : List ℚ} {x : ℚ}
    (hs : List.Pairwise (fun a b : ℚ => a < b) from_xs) {i : Nat}
    (hi : i < from_xs.length) (hx : from_xs.getD i 0 = x) :
    interpolate_one from_xs ys x = ys.getD i 0 := by
  rcases hres : binary_search_by from_xs x with j | p
  · obtain ⟨hjlt, hjx⟩ := (binary_search_by_correct from_xs x hs).1 j hres
    have hij : j = i := by
      rcases Nat.lt_trichotomy j i with h | h | h
      · have := strict_getD_lt hs h hi
        rw [hjx, hx] at this
        exact absurd this (lt_irrefl x)
      · exact h
      · have := strict_getD_lt hs h hjlt
        rw [hjx, hx] at this
        exact absurd this (lt_irrefl x)
    subst hij
    simp only [interpolate_one]
    rw [hres]
  · exfalso
    obtain ⟨hple, hlow, hhigh⟩ := (binary_search_by_correct from_xs x hs).2 p hres
    rcases Nat.lt_or_ge i p with h | h
    · have := hlow i h
      rw [hx] at this
      exact absurd this (lt_irrefl x)
    · have := hhigh i h hi
      rw [hx] at this
      exact absurd this (lt_irrefl x)

/-- A target strictly between two consecutive source x-values is linearly
interpolated from that bracketing pair. -/
theorem interpolate_one_between {from_xs ys : List ℚ} {x : ℚ}
    (hs : List.Pairwise (fun a b : ℚ => a < b) from_xs) (i : Nat)
    (hi1 : i + 1 < from_xs.length)
    (hlo : from_xs.getD i 0 < x) (hhi : x < from_xs.getD (i + 1) 0) :
    interpolate_one from_xs ys x =
      ys.getD i 0 + (x - from_xs.getD i 0) * (ys.getD (i + 1) 0 - ys.getD i 0)
        / (from_xs.getD (i + 1) 0 - from_xs.getD i 0) := by
  rcases hres : binary_search_by from_xs x with j | p
  · exfalso
    obtain ⟨hjlt, hjx⟩ := (binary_search_by_correct from_xs x hs).1 j hres
    rcases Nat.lt_or_ge j (i + 1) with hj | hj
    · have := strict_getD_le hs (show j ≤ i by omega) (by omega)
      rw [hjx] at this
      linarith
    · have := strict_getD_le hs hj hjlt
      rw [hjx] at this
      linarith
  · obtain ⟨hple, hlow, hhigh⟩ := (binary_search_by_correct from_xs x hs).2 p hres
    have hpi : p = i + 1 := by
      rcases Nat.lt_trichotomy p (i + 1) with h | h | h
      · have := hhigh i (by omega) (by omega)
        linarith
      · exact h
      · have := hlow (i + 1) (by omega)
        linarith
    subst hpi
    simp only [interpolate_one]
    rw [hres]
    dsimp only
    rw [if_neg (by omega), if_neg (by omega)]
    dsimp only
    simp only [Nat.add_sub_cancel]
    have hne : from_xs.getD (i + 1) 0 - from_xs.getD i 0 ≠ 0 := by
      have := strict_getD_lt hs (Nat.lt_succ_self i) hi1
      linarith
    generalize hX0 : from_xs.getD i 0 = X0 at hne ⊢
    generalize hX1 : from_xs.getD (i + 1) 0 = X1 at hne ⊢
    generalize hY0 : ys.getD i 0 = Y0
    generalize hY1 : ys.getD (i + 1) 0 = Y1
    field_simp
    ring

/-- A target left of the whole source range is extrapolated linearly from
the two leftmost points. -/
theorem interpolate_one_left {from_xs ys : List ℚ} {x : ℚ}
    (hs : List.Pairwise (fun a b : ℚ => a < b) from_xs)
    (hlen2 : 2 ≤ from_xs.length) (hx : x < from_xs.getD 0 0) :
    interpolate_one from_xs ys x =
      ys.getD 0 0 + (x - from_xs.getD 0 0) * (ys.getD 1 0 - ys.getD 0 0)
        / (from_xs.getD 1 0 - from_xs.getD 0 0) := by
  rcases hres : binary_search_by from_xs x with j | p
  · exfalso
    obtain ⟨hjlt, hjx⟩ := (binary_search_by_correct from_xs x hs).1 j hres
    have := strict_getD_le hs (Nat.zero_le j) hjlt
    rw [hjx] at this
    linarith
  · obtain ⟨hple, hlow, hhigh⟩ := (binary_search_by_correct from_xs x hs).2 p hres
    have hp0 : p = 0 := by
      rcases Nat.eq_zero_or_pos p with h | h
      · exact h
      · have := hlow 0 h
        linarith
    subst hp0
    simp only [interpolate_one]
    rw [hres]
    dsimp only
    rw [if_pos rfl]
    dsimp only
    have hne : from_xs.getD 1 0 - from_xs.getD 0 0 ≠ 0 := by
      have := strict_getD_lt hs Nat.one_pos (by omega)
      linarith
    generalize hX0 : from_xs.getD 0 0 = X0 at hne ⊢
    generalize hX1 : from_xs.getD 1 0 = X1 at hne ⊢
    generalize hY0 : ys.getD 0 0 = Y0
    generalize hY1 : ys.getD 1 0 = Y1
    field_simp
    ring

/-- A target right of the whole source range is extrapolated linearly from
the two rightmost points. -/
theorem interpolate_one_right {from_xs ys : List ℚ} {x : ℚ}
    (hs : List.Pairwise (fun a b : ℚ => a < b) from_xs)
    (hlen2 : 2 ≤ from_xs.length)
    (hx : from_xs.getD (from_xs.length - 1) 0 < x) :
    interpolate_one from_xs ys x =
      ys.getD (from_xs.length - 2) 0
        + (x - from_xs.getD (from_xs.length - 2) 0)
          * (ys.getD (from_xs.length - 1) 0 - ys.getD (from_xs.length - 2) 0)
          / (from_xs.getD (from_xs.length - 1) 0 - from_xs.getD (from_xs.length - 2) 0) := by
  rcases hres : binary_search_by from_xs x with j | p
  · exfalso
    obtain ⟨hjlt, hjx⟩ := (binary_search_by_correct from_xs x hs).1 j hres
    have := strict_getD_le hs (show j ≤ from_xs.length - 1 by omega) (by omega)
    rw [hjx] at this
    linarith
  · obtain ⟨hple, hlow, hhigh⟩ := (binary_search_by_correct from_xs x hs).2 p hres
    have hp : p = from_xs.length := by
      rcases Nat.lt_or_ge p from_xs.length with h | h
      · exfalso
        have := hhigh (from_xs.length - 1) (by omega) (by omega)
        linarith
      · omega
    subst hp
    simp only [interpolate_one]
    rw [hres]
    dsimp only
    rw [if_neg (by omega), if_pos rfl]
    dsimp only
    have hne : from_xs.getD (from_xs.length - 1) 0
        - from_xs.getD (from_xs.length - 2) 0 ≠ 0 := by
      have := strict_getD_lt hs (show from_xs.length - 2 < from_xs.length - 1 by omega)
        (by omega)
      linarith
    generalize hX0 : from_xs.getD (from_xs.length - 2) 0 = X0 at hne ⊢
    generalize hX1 : from_xs.getD (from_xs.length - 1) 0 = X1 at hne ⊢
    generalize hY0 : ys.getD (from_xs.length - 2) 0 = Y0
    generalize hY1 : ys.getD (from_xs.length - 1) 0 = Y1
    field_simp
    ring

/-- C10: resampling via `interpolate_data` is exact at coincident x-values
and linear between and outside known points: for a strictly sorted source
with at least two points, a target equal to a source x returns the matching
y; a target between two consecutive source points is the linear
interpolation of the bracketing pair; and a target outside the source range
is extrapolated linearly from the two nearest boundary points.  In
particular, for `x = [0,1,2,3]`, `y = [5,1,3,0]`, resampling onto
`[0.5, 1.5, 2.5]` yields `[3.0, 2.0, 1.5]` and resampling onto
`[-0.5, 4.0]` yields `[7.0, -3.0]`. -/
theorem interpolate_data_exact_and_linear (from_xs ys : List ℚ)
    (hs : List.Pairwise (fun a b : ℚ => a < b) from_xs)
    (hlen2 : 2 ≤ from_xs.length) :
    (∀ x : ℚ, ∀ i : Nat, i < from_xs.length → from_xs.getD i 0 = x →
      interpolate_one from_xs ys x = ys.getD i 0) ∧
    (∀ x : ℚ, ∀ i : Nat, i + 1 < from_xs.length → from_xs.getD i 0 < x →
      x < from_xs.getD (i + 1) 0 →
      interpolate_one from_xs ys x =
        ys.getD i 0 + (x - from_xs.getD i 0) * (ys.getD (i + 1) 0 - ys.getD i 0)
          / (from_xs.getD (i + 1) 0 - from_xs.getD i 0)) ∧
    (∀ x : ℚ, x < from_xs.getD 0 0 →
      interpolate_one from_xs ys x =
        ys.getD 0 0 + (x - from_xs.getD 0 0) * (ys.getD 1 0 - ys.getD 0 0)
          / (from_xs.getD 1 0 - from_xs.getD 0 0)) ∧
    (∀ x : ℚ, from_xs.getD (from_xs.length - 1) 0 < x →
      interpolate_one from_xs ys x =
        ys.getD (from_xs.length - 2) 0
          + (x - from_xs.getD (from_xs.length - 2) 0)
            * (ys.getD (from_xs.length - 1) 0 - ys.getD (from_xs.length - 2) 0)
            / (from_xs.getD (from_xs.length - 1) 0
                - from_xs.getD (from_xs.length - 2) 0)) ∧
    interpolate_data [0, 1, 2, 3] [5, 1, 3, 0] [1 / 2, 3 / 2, 5 / 2]
      = [3, 2, 3 / 2] ∧
    interpolate_data [0, 1, 2, 3] [5, 1, 3, 0] [-(1 / 2), 4] = [7, -3] := by
  have hsC : List.Pairwise (fun a b : ℚ => a < b) [0, 1, 2, 3] := by
    norm_num
  refine ⟨?_, ?_, ?_, ?_, ?_, ?_⟩
  · intro x i hi hx
    exact interpolate_one_exact hs hi hx
  · intro x i hi1 hlo hhi
    exact interpolate_one_between hs i hi1 hlo hhi
  · intro x hx
    exact interpolate_one_left hs hlen2 hx
  · intro x hx
    exact interpolate_one_right hs hlen2 hx
  · simp only [interpolate_data, List.map_cons, List.map_nil]
    rw [interpolate_one_between hsC 0 (by norm_num)
        (by norm_num [List.getD_cons_zero, List.getD_cons_succ])
        (by norm_num [List.getD_cons_zero, List.getD_cons_succ]),
      interpolate_one_between hsC 1 (by norm_num)
        (by norm_num [List.getD_cons_zero, List.getD_cons_succ])
        (by norm_num [List.getD_cons_zero, List.getD_cons_succ]),
      interpolate_one_between hsC 2 (by norm_num)
        (by norm_num [List.getD_cons_zero, List.getD_cons_succ])
        (by norm_num [List.getD_cons_zero, List.getD_cons_succ])]
    norm_num [List.getD_cons_zero, List.getD_cons_succ]
  · simp only [interpolate_data, List.map_cons, List.map_nil]
    rw [interpolate_one_left hsC (by norm_num)
        (by norm_num [List.getD_cons_zero, List.getD_cons_succ]),
      interpolate_one_right hsC (by norm_num)
        (by norm_num [List.getD_cons_zero, List.getD_cons_succ])]
    norm_num [List.getD_cons_zero, List.getD_cons_succ]

theorem interpolate_data_exact_and_linear_witness :
    interpolate_data [0, 1, 2, 3] [5, 1, 3, 0] [1 / 2, 3 / 2, 5 / 2]
      = [3, 2, 3 / 2] :=
  (interpolate_data_exact_and_linear [0, 1, 2, 3] [5, 1, 3, 0]
    (by norm_num) (by norm_num)).2.2.2.2.1
